import Mathlib

/-!
Shallow embedding of `deep-rename-replace.js` (a Node.js bulk rename/replace
script) and proofs about its variant-generation and case-preserving
substitution engine.

Strings are modelled as `List Char`.  JavaScript's `toUpperCase`/`toLowerCase`
on single characters are modelled by `Char.toUpper`/`Char.toLower`, i.e. the
simple case mapping on the ASCII range; all inputs exercised by the claims are
ASCII.  The regular expressions appearing in the script
(`/\s+/g`, `/\s+(.)/g`, `/(?:^|\s+)(.)/g`, `/\b\w/g`, and the escaped literal
search patterns) are each embedded by a dedicated recursive function that
follows the JS regex semantics: leftmost match, ordered alternation, greedy
`\s+` with backtracking, `.` excluding line terminators, global scan that
never rescans replacement output within one pass.
-/

namespace DeepRenameReplace

/-- Characters matched by the JavaScript regex class `\s`: tab, LF, VT, FF,
CR, space, NBSP, and the Unicode space separators, line/paragraph separators,
and BOM. -/
def isJsWs (c : Char) : Bool :=
  c.toNat = 9 || c.toNat = 10 || c.toNat = 11 || c.toNat = 12 || c.toNat = 13 ||
  c.toNat = 32 || c.toNat = 160 || c.toNat = 0x1680 ||
  (0x2000 ≤ c.toNat && c.toNat ≤ 0x200A) ||
  c.toNat = 0x2028 || c.toNat = 0x2029 || c.toNat = 0x202F ||
  c.toNat = 0x205F || c.toNat = 0x3000 || c.toNat = 0xFEFF

/-- JavaScript line terminators: the characters NOT matched by `.`. -/
def isLineTerm (c : Char) : Bool :=
  c.toNat = 10 || c.toNat = 13 || c.toNat = 0x2028 || c.toNat = 0x2029

/-- The `preserveCase` function of deep-rename-replace.js (lines 60-75):
returns the replacement unchanged when either string is empty, otherwise
adjusts only the first character of the replacement according to the test
`first === first.toUpperCase() && first !== first.toLowerCase()` on the
first character of the matched original. -/
def preserveCase (original replacement : List Char) : List Char :=
  match original, replacement with
  | [], _ => replacement
  | _, [] => replacement
  | c :: _, d :: rest =>
    if c = c.toUpper ∧ c ≠ c.toLower then d.toUpper :: rest
    else d.toLower :: rest

/-- Scan of `text.replace(regex, cb)` for a non-empty literal pattern:
left-to-right, each non-overlapping occurrence is replaced by `f` applied to
the matched text, and replacement output is never rescanned within the pass.
`fuel` bounds the number of consumed characters; callers pass the text
length, which suffices because every step consumes at least one character. -/
def replaceAux (f : List Char → List Char) (pat : List Char) :
    Nat → List Char → List Char
  | 0, s => s
  | _ + 1, [] => []
  | fuel + 1, c :: rest =>
    if pat.isPrefixOf (c :: rest) then
      f pat ++ replaceAux f pat fuel ((c :: rest).drop pat.length)
    else
      c :: replaceAux f pat fuel rest

/-- Interleaving helper for the empty-pattern case of a global regex replace:
`interAux x [c1, c2, ...] = c1 :: x ++ c2 :: x ++ ...`. -/
def interAux (x : List Char) : List Char → List Char
  | [] => []
  | c :: rest => c :: (x ++ interAux x rest)

/-- JavaScript `text.replace(new RegExp(escapeRegExp(pat), 'g'), cb)`:
global replacement of the literal pattern `pat`, with the callback applied to
each match.  `escapeRegExp` (lines 130-132) makes the pattern literal, so the
regex is embedded as exact-substring matching.  The empty pattern matches the
empty string once at every position, as the empty regex does in JS. -/
def jsReplaceAll (pat : List Char) (f : List Char → List Char)
    (s : List Char) : List Char :=
  match pat with
  | [] => f [] ++ interAux (f []) s
  | _ :: _ => replaceAux f pat s.length s

/-- Whether `text.match(regex)` is non-null for the literal pattern `pat`:
the regex search tries a match at every position.  The empty pattern always
matches. -/
def occursIn (pat : List Char) : List Char → Bool
  | [] => pat.isEmpty
  | c :: rest => pat.isPrefixOf (c :: rest) || occursIn pat rest

/-- One iteration of the `for (const searchText of searchVariants)` loop
shared by `replaceInFileContent` (lines 99-111) and `renameIfMatches`
(lines 146-158): if the regex finds matches in the current text, replace all
of them with the case-preserved replacement and set `hasChanges`. -/
def replaceStep (replaceWith : List Char) (acc : List Char × Bool)
    (searchText : List Char) : List Char × Bool :=
  if occursIn searchText acc.1 then
    (jsReplaceAll searchText (fun m => preserveCase m replaceWith) acc.1, true)
  else acc

/-- The full variant loop of the substitution engine: fold `replaceStep` over
the variant list, starting from the given text with `hasChanges = false`.
This is the pure content/name transform of both `replaceInFileContent` and
`renameIfMatches`; it returns the transformed text and the `hasChanges`
flag. -/
def replaceVariants (searchVariants : List (List Char)) (replaceWith : List Char)
    (text : List Char) : List Char × Bool :=
  searchVariants.foldl (replaceStep replaceWith) (text, false)

mutual
/-- Model of `str.replace(/\s+/g, sep)` (generateVariants, lines 21-48):
each maximal whitespace run is replaced by `sep`. -/
def replaceWsRuns (sep : List Char) : List Char → List Char
  | [] => []
  | c :: rest =>
    if isJsWs c then sep ++ skipWsRun sep rest
    else c :: replaceWsRuns sep rest

/-- Consumes the remainder of a whitespace run, then resumes scanning. -/
def skipWsRun (sep : List Char) : List Char → List Char
  | [] => []
  | c :: rest =>
    if isJsWs c then skipWsRun sep rest
    else c :: replaceWsRuns sep rest
end

/-- Backtracking case of `/\s+(.)/` at end of input: the whole remaining
string is whitespace, so the capture `(.)` must be the last whitespace
character that is not a line terminator, preceded by at least one whitespace
character.  Returns the captured character and the text after the match. -/
def backSearch (s : List Char) : Option (Char × List Char) :=
  match s with
  | [] => none
  | _ :: t =>
    let rts := t.reverse.takeWhile isLineTerm
    match t.reverse.drop rts.length with
    | [] => none
    | d :: _ => some (d, rts.reverse)

/-- Greedy match of `/\s+(.)/` at a position whose character is whitespace:
`\s+` takes the maximal whitespace run; `(.)` captures the following
character if one exists (it is non-whitespace, hence not a line terminator);
otherwise the engine backtracks inside the run.  Returns the captured
character and the text after the match, or `none` when no match starts
here. -/
def matchWsDot (s : List Char) : Option (Char × List Char) :=
  let run := s.takeWhile isJsWs
  match s.drop run.length with
  | d :: rem => some (d, rem)
  | [] => backSearch s

/-- Global scan of `str.replace(/\s+(.)/g, (m, l) => l.toUpperCase())`
(generateVariants, line 33): at each whitespace position try the greedy
`\s+(.)` match; on a match, emit the uppercased capture and continue after
the match; otherwise copy the character. -/
def camelAux : Nat → List Char → List Char
  | 0, s => s
  | _ + 1, [] => []
  | fuel + 1, c :: rest =>
    if isJsWs c then
      match matchWsDot (c :: rest) with
      | some (d, rem) => d.toUpper :: camelAux fuel rem
      | none => c :: camelAux fuel rest
    else c :: camelAux fuel rest

/-- The camelCase variant: lowercase the string, then replace `/\s+(.)/g`
with the uppercased capture. -/
def jsCamelCase (s : List Char) : List Char :=
  let lower := s.map Char.toLower
  camelAux lower.length lower

/-- First step of `/(?:^|\s+)(.)/g` (generateVariants, line 37): at position
0 the alternation tries `^` first, which succeeds whenever the first
character can be captured by `(.)` (i.e. is not a line terminator); otherwise
the `\s+` alternative is tried at position 0; the rest of the string is
scanned with the `\s+(.)` alternative only, since `^` cannot match later. -/
def pascalFirst (s : List Char) : List Char :=
  match s with
  | [] => []
  | c :: rest =>
    if !isLineTerm c then c.toUpper :: camelAux rest.length rest
    else
      match matchWsDot (c :: rest) with
      | some (d, rem) => d.toUpper :: camelAux rem.length rem
      | none => c :: camelAux rest.length rest

/-- The PascalCase variant: lowercase, uppercase every `(?:^|\s+)(.)` capture,
then remove all remaining whitespace runs (`replace(/\s+/g, '')`). -/
def jsPascalCase (s : List Char) : List Char :=
  replaceWsRuns [] (pascalFirst (s.map Char.toLower))

/-- The regex class `\w`: ASCII letters, digits and underscore. -/
def isWordChar (c : Char) : Bool :=
  ('A' ≤ c && c ≤ 'Z') || ('a' ≤ c && c ≤ 'z') || ('0' ≤ c && c ≤ '9') || c == '_'

/-- Global scan of `str.replace(/\b\w/g, letter => letter.toUpperCase())`
(generateVariants, line 41): uppercase every word character that starts a
word, i.e. is at position 0 or preceded by a non-word character of the
original string. -/
def titleAux (prevNonWord : Bool) : List Char → List Char
  | [] => []
  | c :: rest =>
    (if prevNonWord && isWordChar c then c.toUpper else c) ::
      titleAux (!isWordChar c) rest

/-- The Title Case variant of generateVariants. -/
def jsTitleCase (s : List Char) : List Char :=
  titleAux true s

/-- First-occurrence deduplication, the meaning of `[...new Set(variants)]`
(generateVariants, line 51): JS `Set` iterates in insertion order and keeps
the first occurrence of each element. -/
def dedupAux (seen : List (List Char)) : List (List Char) → List (List Char)
  | [] => []
  | a :: as =>
    if a ∈ seen then dedupAux seen as
    else a :: dedupAux (a :: seen) as

/-- The `generateVariants` function of deep-rename-replace.js (lines 11-52):
the eleven casing/delimiter transforms pushed in source order, then
deduplicated keeping first occurrences. -/
def generateVariants (str : List Char) : List (List Char) :=
  let lower := str.map Char.toLower
  let upper := str.map Char.toUpper
  dedupAux []
    [str, upper,
     replaceWsRuns ['_'] lower, replaceWsRuns ['_'] upper,
     replaceWsRuns ['-'] lower, replaceWsRuns ['-'] upper,
     jsCamelCase str, jsPascalCase str, jsTitleCase str,
     replaceWsRuns [] lower, replaceWsRuns [] upper]

/-- The `shouldIgnoreFolder` function (lines 82-85). -/
def shouldIgnoreFolder (folderName : List Char) : Bool :=
  [".git".toList, "bin".toList, "obj".toList, "node_modules".toList,
   "dist".toList].contains folderName

/-- JavaScript `String.prototype.trim`: strip leading and trailing
whitespace (including line terminators). -/
def jsTrim (s : List Char) : List Char :=
  ((s.dropWhile isJsWs).reverse.dropWhile isJsWs).reverse

/-- Splits `t` at the leftmost occurrence of `pat`: returns the text before
the occurrence and the text after it, or `none` when `pat` does not occur. -/
def findSplit (pat : List Char) : List Char → Option (List Char × List Char)
  | [] => none
  | c :: rest =>
    if pat.isPrefixOf (c :: rest) then some ([], (c :: rest).drop pat.length)
    else
      match findSplit pat rest with
      | none => none
      | some (pre, post) => some (c :: pre, post)

/-- Modelled from the spec: one pass of global, non-overlapping,
left-to-right, literal replacement, written as repeated leftmost-occurrence
splitting — replacement text introduced during the pass is not rescanned.
`fuel` bounds the number of replacements; the text length suffices. -/
def specReplaceAux (f : List Char → List Char) (pat : List Char) :
    Nat → List Char → List Char
  | 0, t => t
  | fuel + 1, t =>
    match findSplit pat t with
    | none => t
    | some (pre, post) => pre ++ f pat ++ specReplaceAux f pat fuel post

/-- Modelled from the spec: global literal replacement of one variant, the
per-step operation of the explicit fold of claim C5.  An empty variant's
pattern matches at every position. -/
def specLiteralReplace (pat : List Char) (f : List Char → List Char)
    (t : List Char) : List Char :=
  match pat with
  | [] => f [] ++ interAux (f []) t
  | _ :: _ => specReplaceAux f pat t.length t

/-- Modelled from the spec: content substitution as an explicit left fold
over the variant list, each step consuming the previous step's output
string. -/
def specContentSubstitution (searchVariants : List (List Char))
    (replaceWith : List Char) (text : List Char) : List Char :=
  searchVariants.foldl
    (fun acc v => specLiteralReplace v (fun m => preserveCase m replaceWith) acc)
    text

/-- Whether, during the variant fold, some variant's regex finds a match in
the text as it stands when that variant's turn comes — i.e. whether the
replacement callback (which sets `hasChanges`) runs at least once. -/
def matchedDuring (replaceWith : List Char) :
    List (List Char) → List Char → Bool
  | [], _ => false
  | v :: vs, t =>
    occursIn v t || matchedDuring replaceWith vs (replaceStep replaceWith (t, false) v).1

/-- A filesystem tree: files with contents, directories with children.
Names are basenames. -/
inductive FsEntry where
  | file (name : List Char) (content : List Char)
  | dir (name : List Char) (children : List FsEntry)

/-- The resulting basename after `renameIfMatches` (lines 141-173) on an
item with this name, in an error-free run: the item is renamed to the
variant-substituted name exactly when `hasChanges` was set. -/
def renameResult (searchVariants : List (List Char)) (replaceWith : List Char)
    (name : List Char) : List Char :=
  let r := replaceVariants searchVariants replaceWith name
  if r.2 then r.1 else name

mutual
/-- Effect of an error-free `processDirectory` run (lines 181-227) on one
item of a directory: a file gets its content substituted
(`replaceInFileContent`) and its name substituted (`renameIfMatches`); a
directory whose name is in the ignore set is skipped entirely (it is filtered
out before the rename/recurse pass); any other directory is renamed and then
recursively processed.  The file-then-directory pass order of the source
affects only console output and live paths, not the resulting tree. -/
def processItem (searchVariants : List (List Char)) (replaceWith : List Char) :
    FsEntry → FsEntry
  | .file n c =>
    .file (renameResult searchVariants replaceWith n)
      (let r := replaceVariants searchVariants replaceWith c
       if r.2 then r.1 else c)
  | .dir n ch =>
    if shouldIgnoreFolder n then .dir n ch
    else .dir (renameResult searchVariants replaceWith n)
      (processChildren searchVariants replaceWith ch)

/-- Error-free processing of a directory's children, item by item. -/
def processChildren (searchVariants : List (List Char)) (replaceWith : List Char) :
    List FsEntry → List FsEntry
  | [] => []
  | e :: es =>
    processItem searchVariants replaceWith e ::
      processChildren searchVariants replaceWith es
end

/-- What exists at the resolved root path: nothing, a file, or a directory
with children. -/
inductive RootFs where
  | missing
  | file (content : List Char)
  | dir (children : List FsEntry)

/-- The `main` function (lines 232-294) as a function from the argument list
(after `process.argv.slice(2)`) and the state at the root path to the process
exit status and the resulting state.  Checks, in source order: at least three
arguments; `replaceWith.trim()` non-empty; root exists; root is a directory.
Each failed check exits with status 1 before touching the filesystem; a
passing run processes the root's children and exits 0. -/
def runMain (args : List (List Char)) (root : RootFs) : Nat × RootFs :=
  match args with
  | _ :: searchText :: replaceWith :: _ =>
    if jsTrim replaceWith = [] then (1, root)
    else
      match root with
      | .missing => (1, root)
      | .file c => (1, .file c)
      | .dir ch =>
        (0, .dir (processChildren (generateVariants searchText) replaceWith ch))
  | _ => (1, root)

/-- The `replaceInFileContent` function (lines 94-123) with its try/catch
modelled explicitly: `canRead`/`canWrite` say whether `readFileSync` /
`writeFileSync` succeed; a thrown error is caught, logged, and the function
returns `false`.  Result: the file's on-disk content afterwards, and the
returned boolean. -/
def replaceInFileContentEx (canRead canWrite : Bool)
    (searchVariants : List (List Char)) (replaceWith : List Char)
    (content : List Char) : List Char × Bool :=
  if canRead then
    let r := replaceVariants searchVariants replaceWith content
    if r.2 then
      if canWrite then (r.1, true) else (content, false)
    else (content, false)
  else (content, false)

/-- The `renameIfMatches` function (lines 141-173) with its try/catch
modelled explicitly: `canRename` says whether `renameSync` succeeds; a thrown
error is caught, logged, and the function returns `null`.  Result: the item's
on-disk basename afterwards, and the returned value (`some newPath` or
`none`). -/
def renameIfMatchesEx (canRename : Bool)
    (searchVariants : List (List Char)) (replaceWith : List Char)
    (name : List Char) : List Char × Option (List Char) :=
  let r := replaceVariants searchVariants replaceWith name
  if r.2 then
    if canRename then (r.1, some r.1) else (name, none)
  else (name, none)

/-! ## Helper lemmas -/

theorem mem_dedupAux (l : List (List Char)) :
    ∀ (seen : List (List Char)) (x : List Char), x ∈ dedupAux seen l → x ∉ seen := by
  induction l with
  | nil => intro seen x hx; simp [dedupAux] at hx
  | cons a as ih =>
    intro seen x hx
    by_cases h : a ∈ seen
    · simp only [dedupAux, if_pos h] at hx
      exact ih seen x hx
    · simp only [dedupAux, if_neg h, List.mem_cons] at hx
      rcases hx with rfl | hx
      · exact h
      · have := ih (a :: seen) x hx
        intro hs
        exact this (List.mem_cons_of_mem a hs)

theorem dedupAux_nodup (l : List (List Char)) :
    ∀ seen : List (List Char), (dedupAux seen l).Nodup := by
  induction l with
  | nil => intro seen; simp [dedupAux]
  | cons a as ih =>
    intro seen
    by_cases h : a ∈ seen
    · simpa [dedupAux, if_pos h] using ih seen
    · simp only [dedupAux, if_neg h, List.nodup_cons]
      refine ⟨fun hmem => ?_, ih (a :: seen)⟩
      exact mem_dedupAux as (a :: seen) a hmem (List.mem_cons_self a seen)

theorem foldl_replaceStep_snd (rep : List Char) (vs : List (List Char)) :
    ∀ (t : List Char) (b : Bool),
      (List.foldl (replaceStep rep) (t, b) vs).2 = (b || matchedDuring rep vs t) := by
  induction vs with
  | nil => intro t b; simp [matchedDuring]
  | cons v vs ih =>
    intro t b
    rw [List.foldl_cons]
    by_cases h : occursIn v t = true
    · have hstep : replaceStep rep (t, b) v =
          (jsReplaceAll v (fun m => preserveCase m rep) t, true) := by
        simp [replaceStep, h]
      have hstep0 : (replaceStep rep (t, false) v).1 =
          jsReplaceAll v (fun m => preserveCase m rep) t := by
        simp [replaceStep, h]
      rw [hstep, ih, matchedDuring]
      simp [h, hstep0]
    · have hb : occursIn v t = false := by simpa using h
      simp only [replaceStep, hb, Bool.false_eq_true, if_false, ih,
        matchedDuring, Bool.false_or]

theorem foldl_replaceStep_fst_of_not_matched (rep : List Char) (vs : List (List Char)) :
    ∀ (t : List Char) (b : Bool), matchedDuring rep vs t = false →
      (List.foldl (replaceStep rep) (t, b) vs).1 = t := by
  induction vs with
  | nil => intro t b _; rfl
  | cons v vs ih =>
    intro t b hm
    simp only [matchedDuring, Bool.or_eq_false_iff] at hm
    obtain ⟨h1, h2⟩ := hm
    rw [List.foldl_cons]
    have hstep : replaceStep rep (t, b) v = (t, b) := by
      simp [replaceStep, h1]
    have hstep0 : (replaceStep rep (t, false) v).1 = t := by
      simp [replaceStep, h1]
    rw [hstep]
    exact ih t b (hstep0 ▸ h2)

theorem replaceAux_nil (f : List Char → List Char) (pat : List Char) (n : Nat) :
    replaceAux f pat n [] = [] := by
  cases n <;> rfl

theorem replaceAux_fuel (f : List Char → List Char) (pat : List Char)
    (hp : pat ≠ []) :
    ∀ (n m : Nat) (t : List Char), t.length ≤ n → t.length ≤ m →
      replaceAux f pat n t = replaceAux f pat m t := by
  have hpl : 1 ≤ pat.length := List.length_pos.mpr hp
  intro n
  induction n with
  | zero =>
    intro m t ht _
    have : t = [] := List.eq_nil_of_length_eq_zero (Nat.le_zero.mp ht)
    subst this
    rw [replaceAux_nil, replaceAux_nil]
  | succ n ih =>
    intro m t ht hm
    match t with
    | [] => rw [replaceAux_nil, replaceAux_nil]
    | c :: rest =>
      match m with
      | 0 => simp at hm
      | m + 1 =>
        simp only [List.length_cons, Nat.succ_le_succ_iff] at ht hm
        by_cases hpre : pat.isPrefixOf (c :: rest) = true
        · simp only [replaceAux, hpre, if_true]
          have hd : ((c :: rest).drop pat.length).length ≤ rest.length := by
            simp only [List.length_drop, List.length_cons]
            omega
          exact congrArg (f pat ++ ·)
            (ih m _ (le_trans hd ht) (le_trans hd hm))
        · simp only [replaceAux, hpre, Bool.false_eq_true, if_false]
          exact congrArg (c :: ·) (ih m rest ht hm)

theorem findSplit_eq (pat : List Char) :
    ∀ (t pre post : List Char), findSplit pat t = some (pre, post) →
      t = pre ++ pat ++ post := by
  intro t
  induction t with
  | nil => intro pre post h; simp [findSplit] at h
  | cons c rest ih =>
    intro pre post h
    by_cases hpre : pat.isPrefixOf (c :: rest) = true
    · simp only [findSplit, hpre, if_true, Option.some_inj, Prod.mk.injEq] at h
      obtain ⟨rfl, rfl⟩ := h
      obtain ⟨u, hu⟩ := List.isPrefixOf_iff_prefix.mp hpre
      rw [List.nil_append, ← hu, List.drop_left]
    · simp only [findSplit, hpre, Bool.false_eq_true, if_false] at h
      cases hfs : findSplit pat rest with
      | none => rw [hfs] at h; exact absurd h (by simp)
      | some pq =>
        obtain ⟨p, q⟩ := pq
        rw [hfs] at h
        simp only [Option.some_inj, Prod.mk.injEq] at h
        obtain ⟨rfl, rfl⟩ := h
        rw [ih p q hfs]
        rfl

theorem replaceAux_of_findSplit_none (f : List Char → List Char)
    (pat : List Char) :
    ∀ (t : List Char) (n : Nat), findSplit pat t = none →
      replaceAux f pat n t = t := by
  intro t
  induction t with
  | nil => intro n _; exact replaceAux_nil f pat n
  | cons c rest ih =>
    intro n h
    by_cases hpre : pat.isPrefixOf (c :: rest) = true
    · simp [findSplit, hpre] at h
    · have hrest : findSplit pat rest = none := by
        simp only [findSplit, hpre, Bool.false_eq_true, if_false] at h
        cases hfs : findSplit pat rest with
        | none => rfl
        | some pq => obtain ⟨p, q⟩ := pq; rw [hfs] at h; simp at h
      match n with
      | 0 => rfl
      | n + 1 =>
        simp only [replaceAux, hpre, Bool.false_eq_true, if_false]
        exact congrArg (c :: ·) (ih n hrest)

theorem specReplaceAux_nil (f : List Char → List Char) (pat : List Char)
    (n : Nat) : specReplaceAux f pat n [] = [] := by
  cases n with
  | zero => rfl
  | succ n =>
    have : findSplit pat ([] : List Char) = none := by simp [findSplit]
    simp [specReplaceAux, this]

theorem specReplaceAux_succ_some (f : List Char → List Char) (pat : List Char)
    {t pre post : List Char} (h : findSplit pat t = some (pre, post))
    (fuel : Nat) :
    specReplaceAux f pat (fuel + 1) t =
      pre ++ f pat ++ specReplaceAux f pat fuel post := by
  simp only [specReplaceAux, h]

theorem specReplaceAux_succ_none (f : List Char → List Char) (pat : List Char)
    {t : List Char} (h : findSplit pat t = none) (fuel : Nat) :
    specReplaceAux f pat (fuel + 1) t = t := by
  simp only [specReplaceAux, h]

theorem specReplaceAux_fuel (f : List Char → List Char) (pat : List Char)
    (hp : pat ≠ []) :
    ∀ (n m : Nat) (t : List Char), t.length ≤ n → t.length ≤ m →
      specReplaceAux f pat n t = specReplaceAux f pat m t := by
  have hpl : 1 ≤ pat.length := List.length_pos.mpr hp
  intro n
  induction n with
  | zero =>
    intro m t ht _
    have : t = [] := List.eq_nil_of_length_eq_zero (Nat.le_zero.mp ht)
    subst this
    rw [specReplaceAux_nil f pat, specReplaceAux_nil f pat]
  | succ n ih =>
    intro m t ht hm
    cases hfs : findSplit pat t with
    | none =>
      cases m with
      | zero => simp [specReplaceAux, hfs]
      | succ m => simp [specReplaceAux, hfs]
    | some pq =>
      obtain ⟨pre, post⟩ := pq
      have hteq := findSplit_eq pat t pre post hfs
      have hlen : post.length + 1 ≤ t.length := by
        rw [hteq]; simp only [List.length_append]; omega
      match m with
      | 0 => omega
      | m + 1 =>
        simp only [specReplaceAux, hfs]
        have h1 : post.length ≤ n := by omega
        have h2 : post.length ≤ m := by omega
        rw [ih m post h1 h2]

theorem replaceAux_eq_specReplaceAux (f : List Char → List Char)
    (pat : List Char) (hp : pat ≠ []) :
    ∀ (N : Nat) (t : List Char), t.length ≤ N →
      replaceAux f pat t.length t = specReplaceAux f pat t.length t := by
  have hpl : 1 ≤ pat.length := List.length_pos.mpr hp
  intro N
  induction N with
  | zero =>
    intro t ht
    have : t = [] := List.eq_nil_of_length_eq_zero (Nat.le_zero.mp ht)
    subst this
    rfl
  | succ N ih =>
    intro t ht
    match t with
    | [] => rfl
    | c :: rest =>
      simp only [List.length_cons, Nat.succ_le_succ_iff] at ht
      by_cases hpre : pat.isPrefixOf (c :: rest) = true
      · have hfs : findSplit pat (c :: rest) =
            some ([], (c :: rest).drop pat.length) := by
          simp [findSplit, hpre]
        have hd : ((c :: rest).drop pat.length).length ≤ rest.length := by
          simp only [List.length_drop, List.length_cons]; omega
        show replaceAux f pat (rest.length + 1) (c :: rest) =
          specReplaceAux f pat (rest.length + 1) (c :: rest)
        simp only [replaceAux, hpre, if_true, specReplaceAux, hfs,
          List.nil_append]
        refine congrArg (f pat ++ ·) ?_
        calc replaceAux f pat rest.length ((c :: rest).drop pat.length)
            = replaceAux f pat ((c :: rest).drop pat.length).length
                ((c :: rest).drop pat.length) :=
              replaceAux_fuel f pat hp _ _ _ hd le_rfl
          _ = specReplaceAux f pat ((c :: rest).drop pat.length).length
                ((c :: rest).drop pat.length) :=
              ih _ (le_trans hd ht)
          _ = specReplaceAux f pat rest.length ((c :: rest).drop pat.length) :=
              specReplaceAux_fuel f pat hp _ _ _ le_rfl hd
      · show replaceAux f pat (rest.length + 1) (c :: rest) =
          specReplaceAux f pat (rest.length + 1) (c :: rest)
        simp only [replaceAux, hpre, Bool.false_eq_true, if_false]
        cases hfs : findSplit pat rest with
        | none =>
          have hfs2 : findSplit pat (c :: rest) = none := by
            simp [findSplit, hpre, hfs]
          simp only [specReplaceAux, hfs2]
          exact congrArg (c :: ·) (replaceAux_of_findSplit_none f pat rest _ hfs)
        | some pq =>
          obtain ⟨p, q⟩ := pq
          have hfs2 : findSplit pat (c :: rest) = some (c :: p, q) := by
            simp [findSplit, hpre, hfs]
          have hreq := findSplit_eq pat rest p q hfs
          have hrl : p.length + pat.length + q.length = rest.length := by
            rw [hreq]; simp only [List.length_append]
          obtain ⟨k, hk⟩ : ∃ k, rest.length = k + 1 := ⟨rest.length - 1, by omega⟩
          have hstep : replaceAux f pat rest.length rest =
              specReplaceAux f pat rest.length rest := ih rest ht
          have hq : specReplaceAux f pat k q = specReplaceAux f pat (k + 1) q :=
            specReplaceAux_fuel f pat hp _ _ _ (by omega) (by omega)
          show c :: replaceAux f pat rest.length rest =
            specReplaceAux f pat (rest.length + 1) (c :: rest)
          rw [hstep, hk, specReplaceAux_succ_some f pat hfs2 (k + 1),
            specReplaceAux_succ_some f pat hfs k, hq]
          simp

theorem jsReplaceAll_eq_specLiteralReplace (pat : List Char)
    (f : List Char → List Char) (t : List Char) :
    jsReplaceAll pat f t = specLiteralReplace pat f t := by
  cases pat with
  | nil => rfl
  | cons p ps =>
    exact replaceAux_eq_specReplaceAux f (p :: ps) (by simp) t.length t le_rfl

theorem occursIn_of_findSplit_some (pat : List Char) :
    ∀ (t : List Char) (x : List Char × List Char),
      findSplit pat t = some x → occursIn pat t = true := by
  intro t
  induction t with
  | nil => intro x h; simp [findSplit] at h
  | cons c rest ih =>
    intro x h
    by_cases hpre : pat.isPrefixOf (c :: rest) = true
    · simp [occursIn, hpre]
    · simp only [findSplit, hpre, Bool.false_eq_true, if_false] at h
      cases hfs : findSplit pat rest with
      | none => rw [hfs] at h; simp at h
      | some pq =>
        simp [occursIn, ih pq hfs]

theorem specLiteralReplace_of_not_occurs (pat : List Char)
    (f : List Char → List Char) (t : List Char) (h : occursIn pat t = false) :
    specLiteralReplace pat f t = t := by
  cases pat with
  | nil =>
    exfalso
    have ho : occursIn [] t = true := by cases t <;> simp [occursIn]
    rw [ho] at h
    simp at h
  | cons p ps =>
    cases hfs : findSplit (p :: ps) t with
    | some x => rw [occursIn_of_findSplit_some (p :: ps) t x hfs] at h; simp at h
    | none =>
      show specReplaceAux f (p :: ps) t.length t = t
      cases hl : t.length with
      | zero => rfl
      | succ k => simp [specReplaceAux, hfs]

/-! ## Claim theorems -/

/-- C1, counterexample: applying content substitution with the variants of
"foo bar" and replacement "baz qux" to "FooBar FOO_BAR foo-bar" does NOT
yield "BazQux BAZ_QUX baz-qux" as the claim states: the code substitutes the
raw replacement phrase with only its first character case-adjusted, it does
not shape the replacement like the matched variant. -/
theorem c1_roundTrip_counterexample :
    (replaceVariants (generateVariants ("foo bar".toList)) ("baz qux".toList)
        ("FooBar FOO_BAR foo-bar".toList)).1
      ≠ "BazQux BAZ_QUX baz-qux".toList := by decide

/-- C1, amended: on the text "FooBar FOO_BAR foo-bar", each matched
occurrence is replaced by the raw phrase "baz qux" with only its first
character case-adjusted ("FooBar" → "Baz qux", "FOO_BAR" → "Baz qux",
"foo-bar" → "baz qux"), so the output is "Baz qux Baz qux baz qux" with the
change flag set. -/
theorem c1_roundTrip_amended :
    replaceVariants (generateVariants ("foo bar".toList)) ("baz qux".toList)
        ("FooBar FOO_BAR foo-bar".toList)
      = ("Baz qux Baz qux baz qux".toList, true) := by decide

/-- C2, counterexample: generateVariants "bjj video" is not the README's
eleven-string list — the Title Case variant the code produces is
"Bjj Video", not the README's "BJJ Video". -/
theorem c2_variants_counterexample :
    generateVariants ("bjj video".toList) ≠
      ["bjj video".toList, "BJJ VIDEO".toList, "bjj_video".toList,
       "BJJ_VIDEO".toList, "bjj-video".toList, "BJJ-VIDEO".toList,
       "bjjVideo".toList, "BjjVideo".toList, "BJJ Video".toList,
       "bjjvideo".toList, "BJJVIDEO".toList] := by decide

/-- C2, amended: generateVariants "bjj video" returns exactly these eleven
pairwise-distinct strings in this order, with "Bjj Video" (first letter of
each word uppercased, the rest unchanged) as the Title Case variant. -/
theorem c2_variants_amended :
    generateVariants ("bjj video".toList) =
      ["bjj video".toList, "BJJ VIDEO".toList, "bjj_video".toList,
       "BJJ_VIDEO".toList, "bjj-video".toList, "BJJ-VIDEO".toList,
       "bjjVideo".toList, "BjjVideo".toList, "Bjj Video".toList,
       "bjjvideo".toList, "BJJVIDEO".toList]
    ∧ (generateVariants ("bjj video".toList)).Nodup := by
  constructor <;> decide

/-- C3, counterexample: with variant list ["a"], replacement "a" and text
"a", the substitution returns the unchanged text "a" together with the flag
true, so the flag is not equivalent to "the transformed text differs from
the input": the callback sets hasChanges on every match, even when the
replacement equals the matched text. -/
theorem c3_flag_counterexample :
    ¬((replaceVariants [['a']] ['a'] ['a']).2 = true ↔
      (replaceVariants [['a']] ['a'] ['a']).1 ≠ ['a']) := by decide

/-- C3, amended: the returned boolean is true exactly when some variant's
regex finds a match in the text as it stands at that variant's fold step
(`matchedDuring`); a transformed text that differs from the input implies
the flag, but the flag can be true with the text unchanged. -/
theorem c3_flag_amended (t : List Char) (vs : List (List Char)) (rep : List Char) :
    (replaceVariants vs rep t).2 = matchedDuring rep vs t ∧
    ((replaceVariants vs rep t).1 ≠ t → (replaceVariants vs rep t).2 = true) := by
  have h1 : (replaceVariants vs rep t).2 = matchedDuring rep vs t := by
    have := foldl_replaceStep_snd rep vs t false
    simpa [replaceVariants] using this
  refine ⟨h1, fun hne => ?_⟩
  cases hm : matchedDuring rep vs t with
  | true => rw [h1, hm]
  | false =>
    exact absurd (foldl_replaceStep_fst_of_not_matched rep vs t false hm) hne

/-- Witness for C3's amended theorem at a concrete input where the text
changes. -/
theorem c3_flag_amended_witness :
    (replaceVariants [['a']] ['b'] ['a']).2 = true :=
  (c3_flag_amended ['a'] [['a']] ['b']).2 (by decide)

/-- C4: preserveCase returns the replacement unchanged when either string is
empty; otherwise it adjusts exactly the first character of the replacement —
uppercased when the first matched character is an uppercase letter (equal to
its own uppercase form, with distinct uppercase and lowercase forms),
lowercased in every other case — and leaves the tail of the replacement
untouched. -/
theorem c4_preserveCase_firstCharOnly (m r : List Char) :
    (m = [] → preserveCase m r = r) ∧
    (r = [] → preserveCase m r = r) ∧
    (∀ c m2 d r2, m = c :: m2 → r = d :: r2 →
      preserveCase m r =
        (if c = c.toUpper ∧ c.toUpper ≠ c.toLower then d.toUpper else d.toLower)
          :: r2) := by
  refine ⟨?_, ?_, ?_⟩
  · rintro rfl; cases r <;> rfl
  · rintro rfl; cases m <;> rfl
  · rintro c m2 d r2 rfl rfl
    show (if c = c.toUpper ∧ c ≠ c.toLower then d.toUpper :: r2
          else d.toLower :: r2) = _
    have hcond : (c = c.toUpper ∧ c ≠ c.toLower) ↔
        (c = c.toUpper ∧ c.toUpper ≠ c.toLower) := by
      constructor
      · rintro ⟨ha, hb⟩
        exact ⟨ha, by rw [← ha]; exact hb⟩
      · rintro ⟨ha, hb⟩
        refine ⟨ha, fun he => hb ?_⟩
        rw [← ha]; exact he
    rw [apply_ite (· :: r2)]
    exact if_congr hcond rfl rfl

/-- Witness for C4 at concrete inputs: matched text "FOO", replacement
"bar" gives "Bar". -/
theorem c4_preserveCase_firstCharOnly_witness :
    preserveCase ('F' :: "OO".toList) ('b' :: "ar".toList) = 'B' :: "ar".toList := by
  have h := (c4_preserveCase_firstCharOnly ('F' :: "OO".toList)
    ('b' :: "ar".toList)).2.2 'F' "OO".toList 'b' "ar".toList rfl rfl
  rw [h]; decide

/-- C5: content substitution equals the explicit left fold over the variant
list in which step k performs global, non-overlapping, left-to-right, literal
replacement (by repeated leftmost-occurrence splitting, so replacement text
introduced in a pass is not rescanned within that pass) on the output of
step k-1, making text changed by variant k visible to variant k+1's scan. -/
theorem c5_fold_refinement (t : List Char) (vs : List (List Char))
    (rep : List Char) :
    (replaceVariants vs rep t).1 = specContentSubstitution vs rep t := by
  suffices h : ∀ (vs : List (List Char)) (t : List Char) (b : Bool),
      (List.foldl (replaceStep rep) (t, b) vs).1 =
        List.foldl
          (fun acc v => specLiteralReplace v (fun m => preserveCase m rep) acc)
          t vs by
    exact h vs t false
  intro vs
  induction vs with
  | nil => intro t b; rfl
  | cons v vs ih =>
    intro t b
    rw [List.foldl_cons, List.foldl_cons]
    have hstep : (replaceStep rep (t, b) v).1 =
        specLiteralReplace v (fun m => preserveCase m rep) t := by
      by_cases h : occursIn v t = true
      · simp only [replaceStep, h, if_true]
        exact jsReplaceAll_eq_specLiteralReplace v _ t
      · have hb : occursIn v t = false := by simpa using h
        simp only [replaceStep, hb, Bool.false_eq_true, if_false]
        exact (specLiteralReplace_of_not_occurs v _ t hb).symm
    calc (List.foldl (replaceStep rep) (replaceStep rep (t, b) v) vs).1
        = List.foldl
            (fun acc v => specLiteralReplace v (fun m => preserveCase m rep) acc)
            (replaceStep rep (t, b) v).1 vs :=
          ih (replaceStep rep (t, b) v).1 (replaceStep rep (t, b) v).2
      _ = _ := by rw [hstep]

/-- C6: for a non-empty phrase, generateVariants returns a duplicate-free
list whose first element is the phrase itself, unchanged. -/
theorem c6_variants_nodup_head (s : List Char) (_h : s ≠ []) :
    (generateVariants s).Nodup ∧ (generateVariants s).head? = some s := by
  constructor
  · show (dedupAux [] _).Nodup
    exact dedupAux_nodup _ []
  · show (dedupAux [] (s :: _)).head? = some s
    simp [dedupAux]

/-- Witness for C6 at the phrase "a b". -/
theorem c6_variants_nodup_head_witness :
    (generateVariants ("a b".toList)).Nodup ∧
    (generateVariants ("a b".toList)).head? = some ("a b".toList) :=
  c6_variants_nodup_head ("a b".toList) (by decide)

/-- C7: during traversal, a directory whose basename is in the fixed ignore
set (.git, bin, obj, node_modules, dist) is left exactly as found: it is not
renamed and its children are not processed. -/
theorem c7_ignoredFolder_untouched (vs : List (List Char)) (rep : List Char)
    (n : List Char) (ch : List FsEntry) (h : shouldIgnoreFolder n = true) :
    processItem vs rep (.dir n ch) = .dir n ch := by
  simp [processItem, h]

/-- Witness for C7: a .git directory is untouched. -/
theorem c7_ignoredFolder_untouched_witness :
    processItem [".git".toList] ("x".toList)
        (.dir (".git".toList) [.file ("a".toList) ("b".toList)])
      = .dir (".git".toList) [.file ("a".toList) ("b".toList)] :=
  c7_ignoredFolder_untouched [".git".toList] ("x".toList) (".git".toList)
    [.file ("a".toList) ("b".toList)] (by decide)

/-- C8: with three or more arguments and a blank replacement text, main
exits with a non-zero status and the filesystem state is unchanged — the
blank-replacement check runs before any filesystem access. -/
theorem c8_blankReplacement_rejected (a0 s rep : List Char)
    (rest : List (List Char)) (root : RootFs) (h : jsTrim rep = []) :
    (runMain (a0 :: s :: rep :: rest) root).1 ≠ 0 ∧
    (runMain (a0 :: s :: rep :: rest) root).2 = root := by
  simp [runMain, h]

/-- Witness for C8: replacement "  " (whitespace only) is rejected with the
root state untouched. -/
theorem c8_blankReplacement_rejected_witness :
    (runMain [".".toList, "x".toList, "  ".toList] (.dir [])).1 ≠ 0 ∧
    (runMain [".".toList, "x".toList, "  ".toList] (.dir [])).2 = .dir [] :=
  c8_blankReplacement_rejected (".".toList) ("x".toList) ("  ".toList) []
    (.dir []) (by decide)

/-- C9: a failed read leaves the file as found and returns false; a failed
write (the only case where a write is attempted is after a successful read)
leaves the file as found and returns false; a failed rename leaves the name
as found and returns null.  Each failure is caught inside the per-item call,
so the surrounding per-item loop continues. -/
theorem c9_failureSemantics (vs : List (List Char)) (rep content name : List Char)
    (cw : Bool) :
    replaceInFileContentEx false cw vs rep content = (content, false) ∧
    replaceInFileContentEx true false vs rep content = (content, false) ∧
    renameIfMatchesEx false vs rep name = (name, none) := by
  refine ⟨rfl, ?_, ?_⟩
  · cases hr : (replaceVariants vs rep content).2 <;>
      simp [replaceInFileContentEx, hr]
  · cases hr : (replaceVariants vs rep name).2 <;>
      simp [renameIfMatchesEx, hr]

/-- C10: an empty search text passes CLI validation (only the root path and
the replacement are validated), generateVariants "" is the one-element list
[""], the run proceeds with it, and that empty-string variant matches at
every position: substitution inserts the replacement before every character
and at the end, with the change flag set. -/
theorem c10_emptySearch :
    generateVariants ([] : List Char) = [[]] ∧
    (∀ (a0 rep : List Char) (ch : List FsEntry), jsTrim rep ≠ [] →
      runMain [a0, [], rep] (.dir ch) =
        (0, .dir (processChildren (generateVariants []) rep ch))) ∧
    (∀ (rep t : List Char),
      replaceVariants (generateVariants []) rep t = (rep ++ interAux rep t, true)) := by
  have h1 : generateVariants ([] : List Char) = [[]] := by decide
  refine ⟨h1, ?_, ?_⟩
  · intro a0 rep ch h
    simp [runMain, h]
  · intro rep t
    rw [h1]
    show replaceStep rep (t, false) [] = _
    have ho : occursIn [] t = true := by cases t <;> simp [occursIn]
    have hp : preserveCase [] rep = rep := by cases rep <;> rfl
    simp only [replaceStep, ho, if_true]
    simp [jsReplaceAll, hp]

/-- Witness for C10: a concrete accepted run with empty search text, and the
empty variant inserting the replacement at every position of "xy". -/
theorem c10_emptySearch_witness :
    runMain ["p".toList, [], "r".toList] (.dir []) =
      (0, .dir (processChildren (generateVariants []) ("r".toList) [])) ∧
    replaceVariants (generateVariants []) ("r".toList) ("xy".toList) =
      ("r".toList ++ interAux ("r".toList) ("xy".toList), true) :=
  ⟨c10_emptySearch.2.1 ("p".toList) ("r".toList) [] (by decide),
   c10_emptySearch.2.2 ("r".toList) ("xy".toList)⟩

end DeepRenameReplace
